import Mathlib

/-!
Verification of the seizure-detection host-side tooling.

The development shallowly embeds the Python sources:
* `compute_neo` (diagnose_channel.py) — the software NEO reference detector;
* the chunk encoder `generate_synthetic_data_chunks` (run_tests.py) and the
  word-level decode used by diagnose_channels.py;
* the event-word decoder and `parse_seizure_events` (run_tests.py);
* the `NeuralSynthSource` state machine and `generate_data_intan16`
  (synthetic.py).

Machine integers are modelled as `Nat`/`Int` with explicit wrapping where the
source computes in numpy `int32`.  Voltages, which the source computes in
floating point, are modelled as rationals; the pseudo-random draws of the
`random` module are passed in explicitly as oracle inputs, and the per-seed
sample stream of a synthesizer is abstracted as a function of the seed, since
`random.seed` makes the stream a pure function of the seed.
-/

/-- Wrapping of an integer into the numpy `int32` range `[-2^31, 2^31)`,
as performed by `astype(np.int32)` and by every arithmetic operation on
`int32` operands. -/
def int32wrap (z : ℤ) : ℤ := (z + 2 ^ 31) % 2 ^ 32 - 2 ^ 31

/-- Centered sample `x_centered[i] = signal.astype(np.int32)[i] - 32768`
from `compute_neo` in diagnose_channel.py (the subtraction is again an
`int32` operation). -/
def centered (signal : List ℕ) (i : ℕ) : ℤ :=
  int32wrap (int32wrap (signal.getD i 0 : ℤ) - 32768)

/-- `compute_neo` from diagnose_channel.py: `neo` has the length of the
input, entries `0` outside the loop `for i in range(1, len(signal) - 1)`,
and inside the loop `neo[i] = abs(curr_sq - neigh_mul)` where
`curr_sq = x_centered[i] ** 2` and `neigh_mul = x_centered[i-1] *
x_centered[i+1]`, all computed on `int32` values (`abs` of the most
negative `int32` wraps, hence the outer `int32wrap`). -/
def compute_neo (signal : List ℕ) : List ℤ :=
  (List.range signal.length).map fun i =>
    if 1 ≤ i ∧ i + 1 < signal.length then
      int32wrap |int32wrap (int32wrap (centered signal i * centered signal i) -
        int32wrap (centered signal (i - 1) * centered signal (i + 1)))|
    else 0

lemma int32wrap_eq_of_bounds {z : ℤ} (h1 : -2 ^ 31 ≤ z) (h2 : z < 2 ^ 31) :
    int32wrap z = z := by
  unfold int32wrap
  rw [Int.emod_eq_of_lt (by linarith) (by linarith)]
  ring

lemma getD_range_map {α : Type} (f : ℕ → α) (n i : ℕ) (d : α) :
    ((List.range n).map f).getD i d = if i < n then f i else d := by
  by_cases h : i < n
  · have hl : i < ((List.range n).map f).length := by simpa using h
    rw [List.getD_eq_getElem _ _ hl, List.getElem_map, List.getElem_range, if_pos h]
  · rw [List.getD_eq_default, if_neg h]
    simpa using Nat.le_of_not_lt h

lemma getD_lt_of_forall {signal : List ℕ} (hs : ∀ a ∈ signal, a < 65536) (i : ℕ) :
    signal.getD i 0 < 65536 := by
  by_cases h : i < signal.length
  · exact hs _ (List.getD_eq_getElem signal 0 h ▸ List.getElem_mem h)
  · rw [List.getD_eq_default _ _ (Nat.le_of_not_lt h)]
    norm_num

lemma centered_eq {signal : List ℕ} (hs : ∀ a ∈ signal, a < 65536) (i : ℕ) :
    centered signal i = (signal.getD i 0 : ℤ) - 32768 := by
  have ha : (signal.getD i 0 : ℤ) < 65536 := by
    exact_mod_cast getD_lt_of_forall hs i
  have ha0 : (0 : ℤ) ≤ (signal.getD i 0 : ℤ) := Int.ofNat_nonneg _
  have hinner : int32wrap (signal.getD i 0 : ℤ) = (signal.getD i 0 : ℤ) :=
    int32wrap_eq_of_bounds (by linarith) (by linarith)
  unfold centered
  rw [hinner, int32wrap_eq_of_bounds (by linarith) (by linarith)]

lemma centered_bounds {signal : List ℕ} (hs : ∀ a ∈ signal, a < 65536) (i : ℕ) :
    -32768 ≤ centered signal i ∧ centered signal i ≤ 32767 := by
  have ha : (signal.getD i 0 : ℤ) < 65536 := by
    exact_mod_cast getD_lt_of_forall hs i
  have ha0 : (0 : ℤ) ≤ (signal.getD i 0 : ℤ) := Int.ofNat_nonneg _
  rw [centered_eq hs]
  constructor <;> linarith

lemma neo_interior {signal : List ℕ} (hs : ∀ a ∈ signal, a < 65536) {i : ℕ}
    (h1 : 1 ≤ i) (h2 : i + 1 < signal.length) :
    (compute_neo signal).getD i 0 =
      |centered signal i ^ 2 - centered signal (i - 1) * centered signal (i + 1)| := by
  have hi : i < signal.length := Nat.lt_of_succ_lt h2
  obtain ⟨b1, b2⟩ := centered_bounds hs i
  obtain ⟨c1, c2⟩ := centered_bounds hs (i - 1)
  obtain ⟨d1, d2⟩ := centered_bounds hs (i + 1)
  set x := centered signal i with hx
  set y := centered signal (i - 1) with hy
  set z := centered signal (i + 1) with hz
  have hsq1 : 0 ≤ x * x := mul_self_nonneg x
  have hsq2 : x * x ≤ 2 ^ 30 := by nlinarith
  have hp1 : -(2 ^ 30) + 32768 ≤ y * z := by nlinarith
  have hp2 : y * z ≤ 2 ^ 30 := by nlinarith
  have w1 : int32wrap (x * x) = x * x :=
    int32wrap_eq_of_bounds (by linarith) (by linarith)
  have w2 : int32wrap (y * z) = y * z :=
    int32wrap_eq_of_bounds (by linarith) (by linarith)
  have w3 : int32wrap (x * x - y * z) = x * x - y * z :=
    int32wrap_eq_of_bounds (by linarith) (by linarith)
  have habs : |x * x - y * z| < 2 ^ 31 := by
    rw [abs_lt]
    constructor <;> linarith
  have w4 : int32wrap |x * x - y * z| = |x * x - y * z| :=
    int32wrap_eq_of_bounds (le_trans (by norm_num) (abs_nonneg _)) habs
  unfold compute_neo
  rw [getD_range_map, if_pos hi, if_pos ⟨h1, h2⟩, ← hx, ← hy, ← hz, w1, w2, w3, w4,
    sq]

lemma neo_boundary (signal : List ℕ) {i : ℕ}
    (h : ¬ (1 ≤ i ∧ i + 1 < signal.length)) :
    (compute_neo signal).getD i 0 = 0 := by
  unfold compute_neo
  rw [getD_range_map]
  by_cases hi : i < signal.length
  · rw [if_pos hi, if_neg h]
  · rw [if_neg hi]

/-- C1: `compute_neo` preserves the length; the first and last entries are 0
(for nonempty input); every interior entry `1 ≤ i ≤ n-2` equals
`|x[i]^2 - x[i-1]*x[i+1]|` with `x[i] = adc_samples[i] - 32768`; every entry
is nonnegative; and on `[32768, 32868, 32768]` the middle entry is 10000. -/
theorem compute_neo_correct (signal : List ℕ) (hs : ∀ a ∈ signal, a < 65536) :
    (compute_neo signal).length = signal.length ∧
    (1 ≤ signal.length → (compute_neo signal).getD 0 0 = 0 ∧
      (compute_neo signal).getD (signal.length - 1) 0 = 0) ∧
    (∀ i, 1 ≤ i → i + 1 < signal.length →
      (compute_neo signal).getD i 0 =
        |((signal.getD i 0 : ℤ) - 32768) ^ 2 -
          ((signal.getD (i - 1) 0 : ℤ) - 32768) *
            ((signal.getD (i + 1) 0 : ℤ) - 32768)|) ∧
    (∀ i, 0 ≤ (compute_neo signal).getD i 0) ∧
    (compute_neo [32768, 32868, 32768]).getD 1 0 = 10000 := by
  refine ⟨by simp [compute_neo], ?_, ?_, ?_, ?_⟩
  · intro hn
    constructor
    · exact neo_boundary signal (by omega)
    · exact neo_boundary signal (by omega)
  · intro i h1 h2
    rw [neo_interior hs h1 h2, centered_eq hs, centered_eq hs, centered_eq hs]
  · intro i
    by_cases h : 1 ≤ i ∧ i + 1 < signal.length
    · rw [neo_interior hs h.1 h.2]
      exact abs_nonneg _
    · rw [neo_boundary signal h]
  · have hs3 : ∀ a ∈ [32768, 32868, 32768], a < 65536 := by decide
    rw [neo_interior hs3 (by norm_num) (by norm_num)]
    rw [centered_eq hs3, centered_eq hs3, centered_eq hs3]
    norm_num

/-- Witness for C1 at the concrete input `[32768, 32868, 32768]`. -/
theorem compute_neo_correct_witness :
    (∀ a ∈ [32768, 32868, 32768], a < 65536) ∧
    (compute_neo [32768, 32868, 32768]).length = 3 ∧
    (compute_neo [32768, 32868, 32768]).getD 1 0 = 10000 := by
  have h : ∀ a ∈ [32768, 32868, 32768], a < 65536 := by decide
  obtain ⟨hlen, _, _, _, hmid⟩ := compute_neo_correct [32768, 32868, 32768] h
  exact ⟨h, hlen, hmid⟩

/-- `NUM_CHANNELS` from synthetic.py. -/
def NUM_CHANNELS : ℕ := 32

/-- `SAMPLES_PER_CHUNK` from run_tests.py. -/
def SAMPLES_PER_CHUNK : ℕ := 128

/-- `word32.to_bytes(4, byteorder='little')` for `word32 < 2^32`: the four
bytes of the word, least significant first. -/
def toBytesLE4 (w : ℕ) : List ℕ :=
  [w % 256, w / 256 % 256, w / 256 ^ 2 % 256, w / 256 ^ 3 % 256]

/-- `int.from_bytes(bs, byteorder='little')`: the first byte is the least
significant. -/
def fromBytesLE (bs : List ℕ) : ℕ := bs.foldr (fun b acc => b + 256 * acc) 0

/-- The emitted word `(ch << 16) | code16` from
`generate_synthetic_data_chunks` in run_tests.py. -/
def encodeWord (ch code16 : ℕ) : ℕ := (ch <<< 16) ||| code16

/-- The sample lookup of `generate_synthetic_data_chunks` (run_tests.py,
also repeated verbatim in diagnose_channels.py):
`code16 = int(all_data_16[idx]) if idx < len(all_data_16) else 32768`
with `idx = ch * samples_per_channel + sample_idx`. -/
def codeAt (data : List ℕ) (spc ch sampleIdx : ℕ) : ℕ :=
  if ch * spc + sampleIdx < data.length then data.getD (ch * spc + sampleIdx) 0
  else 32768

/-- The 32-bit words of chunk `c` in `generate_synthetic_data_chunks`:
channel-major order, `sample_idx = chunk_id * SAMPLES_PER_CHUNK +
sample_in_chunk`. -/
def chunkWords (data : List ℕ) (spc c : ℕ) : List ℕ :=
  (List.range NUM_CHANNELS).flatMap fun ch =>
    (List.range SAMPLES_PER_CHUNK).map fun s =>
      encodeWord ch (codeAt data spc ch (c * SAMPLES_PER_CHUNK + s))

/-- The byte string of chunk `c`: each word serialized by
`word32.to_bytes(4, byteorder='little')` in loop order. -/
def chunkFor (data : List ℕ) (spc c : ℕ) : List ℕ :=
  (chunkWords data spc c).flatMap toBytesLE4

/-- `generate_synthetic_data_chunks` from run_tests.py, starting from the
already generated flat sample buffer: the list of `num_chunks` chunk byte
strings. -/
def generate_synthetic_data_chunks (data : List ℕ) (numChunks spc : ℕ) :
    List (List ℕ) :=
  (List.range numChunks).map (chunkFor data spc)

/-- The channel-field extraction `(word32 >> 16) & 0x3F` from
`check_channel_data_ordering` in diagnose_channels.py. -/
def extractChannel (w : ℕ) : ℕ := (w >>> 16) &&& 0x3F

/-- The sample-field extraction `word32 & 0xFFFF` from
`check_channel_data_ordering` in diagnose_channels.py. -/
def extractCode (w : ℕ) : ℕ := w &&& 0xFFFF

lemma codeAt_lt {data : List ℕ} (hdata : ∀ a ∈ data, a < 65536)
    (spc ch sampleIdx : ℕ) : codeAt data spc ch sampleIdx < 65536 := by
  unfold codeAt
  by_cases h : ch * spc + sampleIdx < data.length
  · rw [if_pos h]
    exact getD_lt_of_forall hdata _
  · rw [if_neg h]
    norm_num

lemma encodeWord_eq {ch code16 : ℕ} (hcode : code16 < 65536) :
    encodeWord ch code16 = 65536 * ch + code16 := by
  unfold encodeWord
  rw [Nat.shiftLeft_eq]
  have h : (2 : ℕ) ^ 16 * ch + code16 = 2 ^ 16 * ch ||| code16 :=
    Nat.mul_add_lt_is_or (by norm_num [hcode]) ch
  rw [Nat.mul_comm ch (2 ^ 16), ← h]
  norm_num

lemma encodeWord_lt {ch code16 : ℕ} (hch : ch < 32) (hcode : code16 < 65536) :
    encodeWord ch code16 < 2 ^ 22 := by
  unfold encodeWord
  refine Nat.or_lt_two_pow ?_ ?_
  · rw [Nat.shiftLeft_eq, show (2 : ℕ) ^ 16 = 65536 by norm_num,
      show (2 : ℕ) ^ 22 = 4194304 by norm_num]
    omega
  · exact lt_trans hcode (by norm_num)

lemma extractChannel_encode {ch code16 : ℕ} (hch : ch < 64)
    (hcode : code16 < 65536) : extractChannel (encodeWord ch code16) = ch := by
  unfold extractChannel
  rw [encodeWord_eq hcode, Nat.shiftRight_eq_div_pow]
  have hdiv : (65536 * ch + code16) / 2 ^ 16 = ch := by
    rw [show (2 : ℕ) ^ 16 = 65536 by norm_num]
    omega
  rw [hdiv, show (0x3F : ℕ) = 2 ^ 6 - 1 by norm_num,
    Nat.and_pow_two_sub_one_eq_mod]
  exact Nat.mod_eq_of_lt hch

lemma extractCode_encode {ch code16 : ℕ} (hcode : code16 < 65536) :
    extractCode (encodeWord ch code16) = code16 := by
  unfold extractCode
  rw [encodeWord_eq hcode, show (0xFFFF : ℕ) = 2 ^ 16 - 1 by norm_num,
    Nat.and_pow_two_sub_one_eq_mod, show (2 : ℕ) ^ 16 = 65536 by norm_num]
  omega

lemma fromBytesLE_toBytesLE4 {w : ℕ} (hw : w < 2 ^ 32) :
    fromBytesLE (toBytesLE4 w) = w := by
  unfold fromBytesLE toBytesLE4
  simp only [List.foldr]
  omega

lemma length_flatMap_range_map {α : Type} (a b : ℕ) (f : ℕ → ℕ → α) :
    ((List.range a).flatMap fun i => (List.range b).map (f i)).length = a * b := by
  induction a with
  | zero => simp
  | succ n ih =>
    rw [List.range_succ, List.flatMap_append, List.length_append, ih]
    simp [Nat.succ_mul]

lemma getD_flatMap_range_map {α : Type} (b : ℕ) (f : ℕ → ℕ → α) (d : α) :
    ∀ (a i j : ℕ), i < a → j < b →
    ((List.range a).flatMap fun i => (List.range b).map (f i)).getD (i * b + j) d =
      f i j := by
  intro a
  induction a with
  | zero => omega
  | succ n ih =>
    intro i j hi hj
    rw [List.range_succ, List.flatMap_append]
    by_cases h : i < n
    · rw [List.getD_append _ _ _ _ ?_]
      · exact ih i j h hj
      · rw [length_flatMap_range_map]
        have h1 : (i + 1) * b ≤ n * b := Nat.mul_le_mul_right b h
        have h2 : (i + 1) * b = i * b + b := by ring
        omega
    · have hin : i = n := by omega
      subst hin
      rw [List.getD_append_right _ _ _ _ ?_]
      · rw [length_flatMap_range_map, Nat.add_sub_cancel_left]
        simp only [List.flatMap_cons, List.flatMap_nil, List.append_nil]
        exact (getD_range_map (f i) b j d).trans (if_pos hj)
      · rw [length_flatMap_range_map]
        omega

lemma flatMap_length_four {α β : Type} (g : α → List β)
    (hg : ∀ x, (g x).length = 4) (l : List α) :
    (l.flatMap g).length = 4 * l.length := by
  induction l with
  | nil => simp
  | cons x xs ih =>
    rw [List.flatMap_cons, List.length_append, ih, hg, List.length_cons]
    ring

lemma flatMap_extract {α β : Type} (g : α → List β)
    (hg : ∀ x, (g x).length = 4) (d : α) :
    ∀ (l : List α) (i : ℕ), i < l.length →
    ((l.flatMap g).drop (4 * i)).take 4 = g (l.getD i d) := by
  intro l
  induction l with
  | nil =>
    intro i hi
    simp at hi
  | cons x xs ih =>
    intro i hi
    rw [List.flatMap_cons]
    cases i with
    | zero =>
      rw [Nat.mul_zero, List.drop_zero, ← hg x, List.take_left]
      rfl
    | succ n =>
      have hd : 4 * (n + 1) = (g x).length + 4 * n := by rw [hg x]; ring
      rw [hd, List.drop_append]
      exact ih n (by simpa using hi)

lemma toBytesLE4_length (w : ℕ) : (toBytesLE4 w).length = 4 := rfl

lemma chunkFor_length (data : List ℕ) (spc c : ℕ) :
    (chunkFor data spc c).length = 16384 := by
  unfold chunkFor
  rw [flatMap_length_four toBytesLE4 toBytesLE4_length]
  unfold chunkWords
  rw [length_flatMap_range_map]
  rfl

lemma chunkWords_getD (data : List ℕ) (spc c ch s : ℕ)
    (hch : ch < NUM_CHANNELS) (hs : s < SAMPLES_PER_CHUNK) :
    (chunkWords data spc c).getD (ch * SAMPLES_PER_CHUNK + s) 0 =
      encodeWord ch (codeAt data spc ch (c * SAMPLES_PER_CHUNK + s)) := by
  unfold chunkWords
  exact getD_flatMap_range_map SAMPLES_PER_CHUNK
    (fun ch' s' => encodeWord ch' (codeAt data spc ch' (c * SAMPLES_PER_CHUNK + s')))
    0 NUM_CHANNELS ch s hch hs

lemma chunkFor_extract (data : List ℕ) (spc c ch s : ℕ)
    (hch : ch < NUM_CHANNELS) (hs : s < SAMPLES_PER_CHUNK) :
    ((chunkFor data spc c).drop (4 * (ch * SAMPLES_PER_CHUNK + s))).take 4 =
      toBytesLE4 (encodeWord ch (codeAt data spc ch (c * SAMPLES_PER_CHUNK + s))) := by
  unfold chunkFor
  have hidx : ch * SAMPLES_PER_CHUNK + s < (chunkWords data spc c).length := by
    unfold chunkWords
    rw [length_flatMap_range_map]
    have hn : NUM_CHANNELS = 32 := rfl
    have hb : SAMPLES_PER_CHUNK = 128 := rfl
    rw [hn] at hch
    rw [hb] at hs ⊢
    rw [hn]
    omega
  rw [flatMap_extract toBytesLE4 toBytesLE4_length 0 _ _ hidx,
    chunkWords_getD data spc c ch s hch hs]

/-- C2: every chunk emitted by `generate_synthetic_data_chunks` is exactly
`NUM_CHANNELS * 128 * 4 = 16384` bytes; the 4 bytes at word position
`ch * 128 + s` are the little-endian encoding of `(ch << 16) | code16`
where `code16` is the flat-buffer sample at `ch * samples_per_channel +
(c * 128 + s)` (or 32768 past the end of the buffer, as `codeAt` states);
and bits `[31:22]` of every emitted word are zero (the word is `< 2^22`). -/
theorem chunk_encoding_correct (data : List ℕ) (spc c ch s : ℕ)
    (hdata : ∀ a ∈ data, a < 65536) (hch : ch < 32) (hs : s < 128) :
    (chunkFor data spc c).length = 16384 ∧
    ((chunkFor data spc c).drop (4 * (ch * 128 + s))).take 4 =
      toBytesLE4 (encodeWord ch (codeAt data spc ch (c * 128 + s))) ∧
    encodeWord ch (codeAt data spc ch (c * 128 + s)) < 2 ^ 22 := by
  refine ⟨chunkFor_length data spc c, ?_, ?_⟩
  · exact chunkFor_extract data spc c ch s hch hs
  · exact encodeWord_lt hch (codeAt_lt hdata spc ch _)

/-- Witness for C2 at concrete input (empty buffer, channel 0, position 0,
chunk 0). -/
theorem chunk_encoding_correct_witness :
    (∀ a ∈ ([] : List ℕ), a < 65536) ∧
    (chunkFor [] 60000 0).length = 16384 ∧
    ((chunkFor [] 60000 0).drop 0).take 4 =
      toBytesLE4 (encodeWord 0 (codeAt [] 60000 0 0)) ∧
    encodeWord 0 (codeAt [] 60000 0 0) < 2 ^ 22 := by
  have h := chunk_encoding_correct [] 60000 0 0 0 (by simp) (by norm_num)
    (by norm_num)
  exact ⟨by simp, h.1, by simpa using h.2.1, h.2.2⟩

/-- C3: decoding the 4 bytes at word position `ch * 128 + s` of an encoded
chunk — little-endian reassembly followed by the extractions
`(word >> 16) & 0x3F` and `word & 0xFFFF` — recovers exactly the channel
`ch` and the 16-bit code that was encoded there. -/
theorem chunk_decode_roundtrip (data : List ℕ) (spc c ch s : ℕ)
    (hdata : ∀ a ∈ data, a < 65536) (hch : ch < 32) (hs : s < 128) :
    extractChannel
        (fromBytesLE (((chunkFor data spc c).drop (4 * (ch * 128 + s))).take 4)) =
      ch ∧
    extractCode
        (fromBytesLE (((chunkFor data spc c).drop (4 * (ch * 128 + s))).take 4)) =
      codeAt data spc ch (c * 128 + s) := by
  have hcode : codeAt data spc ch (c * 128 + s) < 65536 := codeAt_lt hdata spc ch _
  have hw : encodeWord ch (codeAt data spc ch (c * 128 + s)) < 2 ^ 32 :=
    lt_trans (encodeWord_lt hch hcode) (by norm_num)
  have hext : ((chunkFor data spc c).drop (4 * (ch * 128 + s))).take 4 =
      toBytesLE4 (encodeWord ch (codeAt data spc ch (c * 128 + s))) :=
    chunkFor_extract data spc c ch s hch hs
  rw [hext, fromBytesLE_toBytesLE4 hw]
  exact ⟨extractChannel_encode (by omega) hcode, extractCode_encode hcode⟩

/-- Witness for C3 at concrete input (buffer `[7]`, channel 0, position 0,
chunk 0). -/
theorem chunk_decode_roundtrip_witness :
    (∀ a ∈ [7], a < 65536) ∧
    extractChannel
        (fromBytesLE (((chunkFor [7] 60000 0).drop 0).take 4)) = 0 ∧
    extractCode
        (fromBytesLE (((chunkFor [7] 60000 0).drop 0).take 4)) =
      codeAt [7] 60000 0 0 := by
  have h := chunk_decode_roundtrip [7] 60000 0 0 0 (by decide) (by norm_num)
    (by norm_num)
  exact ⟨by decide, by simpa using h.1, by simpa using h.2⟩

/-- C10: with the default run parameters (469 chunks, 60000 samples per
channel, a generated buffer of 32 * 60000 samples), at every overflow
position `c * 128 + s ≥ 60000` the encoder's end-of-buffer test compares
against the whole buffer length, so every channel `ch < 31` reads a sample
from channel `ch + 1`'s region of the flat buffer, and only channel 31
falls back to the mid-scale value 32768. -/
theorem chunk_overflow_crosstalk (data : List ℕ) (c s ch : ℕ)
    (hlen : data.length = 32 * 60000) (hc : c < 469) (hs : s < 128)
    (hover : 60000 ≤ c * 128 + s) :
    (ch < 31 → codeAt data 60000 ch (c * 128 + s) =
        data.getD ((ch + 1) * 60000 + (c * 128 + s - 60000)) 0 ∧
      c * 128 + s - 60000 < 60000) ∧
    codeAt data 60000 31 (c * 128 + s) = 32768 := by
  have hp : c * 128 + s ≤ 60031 := by
    have : c * 128 ≤ 468 * 128 := Nat.mul_le_mul_right _ (by omega)
    omega
  constructor
  · intro hch
    have h30 : ch * 60000 ≤ 30 * 60000 := Nat.mul_le_mul_right _ (by omega)
    have hin : ch * 60000 + (c * 128 + s) < data.length := by omega
    have hidx : ch * 60000 + (c * 128 + s) =
        (ch + 1) * 60000 + (c * 128 + s - 60000) := by omega
    refine ⟨?_, by omega⟩
    unfold codeAt
    rw [if_pos hin, hidx]
  · have hout : ¬ 31 * 60000 + (c * 128 + s) < data.length := by omega
    unfold codeAt
    rw [if_neg hout]

/-- Witness for C10 at concrete input: an all-zero buffer of 32 * 60000
samples, chunk 468, in-chunk position 96 (sample index 60000), channel 0. -/
theorem chunk_overflow_crosstalk_witness :
    (List.replicate (32 * 60000) 0 : List ℕ).length = 32 * 60000 ∧
    codeAt (List.replicate (32 * 60000) 0) 60000 0 (468 * 128 + 96) =
      (List.replicate (32 * 60000) 0 : List ℕ).getD
        ((0 + 1) * 60000 + (468 * 128 + 96 - 60000)) 0 ∧
    codeAt (List.replicate (32 * 60000) 0) 60000 31 (468 * 128 + 96) = 32768 := by
  have hlen : (List.replicate (32 * 60000) 0 : List ℕ).length = 32 * 60000 :=
    List.length_replicate _ _
  have h := chunk_overflow_crosstalk (List.replicate (32 * 60000) 0) 468 96 0
    hlen (by norm_num) (by norm_num) (by norm_num)
  exact ⟨hlen, (h.1 (by norm_num)).1, h.2⟩

/-- The word list decoded from the raw output byte buffer in `main` of
run_tests.py: `int.from_bytes(out[i:i+4], byteorder="little") for i in
range(0, bytes_read, 4) if i + 4 <= bytes_read` — `range(0, n, 4)` is the
list of the `(n + 3) / 4` multiples of 4 below `n`. -/
def decodeEventWords (out : List ℕ) : List ℕ :=
  ((List.range' 0 ((out.length + 3) / 4) 4).filter fun i =>
    i + 4 ≤ out.length).map fun i => fromBytesLE ((out.drop i).take 4)

/-- Event-code field `(w >> 30) & 0x3` from `main` of run_tests.py. -/
def eventCode (w : ℕ) : ℕ := (w >>> 30) &&& 0x3

/-- Channel-id field `(w >> 25) & 0x1F` from `main` of run_tests.py. -/
def channelId (w : ℕ) : ℕ := (w >>> 25) &&& 0x1F

/-- Timestamp field `w & 0x01FF_FFFF` from `main` of run_tests.py. -/
def timestamp25 (w : ℕ) : ℕ := w &&& 0x01FFFFFF

/-- Classification of a decoded event word in `main` of run_tests.py:
event code 1 is a START event, 2 an END event, anything else IDLE. -/
inductive EventKind : Type where
  | start : EventKind
  | stop : EventKind
  | idle : EventKind
deriving DecidableEq

/-- The `if event_code == 0x1 ... elif event_code == 0x2 ... else ...`
chain from `main` of run_tests.py. -/
def classifyEvent (c : ℕ) : EventKind :=
  if c = 1 then EventKind.start else if c = 2 then EventKind.stop
  else EventKind.idle

lemma range'_zero_four (m : ℕ) :
    List.range' 0 m 4 = (List.range m).map fun k => 4 * k := by
  induction m with
  | zero => rfl
  | succ n ih =>
    rw [List.range'_succ, List.range_succ_eq_map, List.map_cons, Nat.mul_zero,
      Nat.zero_add]
    congr 1
    rw [List.map_map, ← List.map_add_range' 4 0 n 4, ih, List.map_map]
    refine List.map_congr_left fun a _ => ?_
    simp [Nat.succ_eq_add_one]
    ring

lemma filter_range_lt (t : ℕ) :
    ∀ m, t ≤ m → (List.range m).filter (fun k => decide (k < t)) =
      List.range t := by
  intro m
  induction m with
  | zero =>
    intro ht
    have : t = 0 := Nat.le_zero.mp ht
    subst this
    rfl
  | succ n ih =>
    intro ht
    rcases Nat.lt_or_ge t (n + 1) with h | h
    · have htn : t ≤ n := by omega
      rw [List.range_succ, List.filter_append, ih htn]
      have hnt : ¬ n < t := by omega
      have : (List.filter (fun k => decide (k < t)) [n]) = [] := by
        simp [hnt]
      rw [this, List.append_nil]
    · have : t = n + 1 := by omega
      subst this
      refine List.filter_eq_self.mpr fun a ha => ?_
      simp only [List.mem_range] at ha
      simpa using ha

lemma decodeEventWords_eq (out : List ℕ) :
    decodeEventWords out =
      (List.range (out.length / 4)).map
        fun k => fromBytesLE ((out.drop (4 * k)).take 4) := by
  unfold decodeEventWords
  rw [range'_zero_four, List.filter_map]
  have hcong : (List.range ((out.length + 3) / 4)).filter
        ((fun i => decide (i + 4 ≤ out.length)) ∘ fun k => 4 * k) =
      (List.range ((out.length + 3) / 4)).filter fun k =>
        decide (k < out.length / 4) := by
    refine List.filter_congr fun k _ => ?_
    simp only [Function.comp_apply, decide_eq_decide]
    omega
  rw [hcong, filter_range_lt (out.length / 4) _ (by omega), List.map_map]
  rfl

/-- C8: the event decoder turns an `n`-byte output buffer into exactly
`n / 4` words, the `k`-th being the little-endian value of bytes
`4k .. 4k+3` (a trailing partial word is dropped); and on any 32-bit word
the field extractions compute bits `[31:30]`, `[29:25]` and `[24:0]`
respectively, with code 1 classified as START, 2 as END and anything else
as IDLE. -/
theorem event_decode_correct (out : List ℕ) (w : ℕ) (hw : w < 2 ^ 32) :
    (decodeEventWords out).length = out.length / 4 ∧
    (∀ k, k < out.length / 4 →
      (decodeEventWords out).getD k 0 = fromBytesLE ((out.drop (4 * k)).take 4)) ∧
    eventCode w = w / 2 ^ 30 ∧
    channelId w = w / 2 ^ 25 % 2 ^ 5 ∧
    timestamp25 w = w % 2 ^ 25 ∧
    classifyEvent 1 = EventKind.start ∧
    classifyEvent 2 = EventKind.stop ∧
    (∀ c, c ≠ 1 → c ≠ 2 → classifyEvent c = EventKind.idle) := by
  refine ⟨?_, ?_, ?_, ?_, ?_, rfl, rfl, ?_⟩
  · rw [decodeEventWords_eq, List.length_map, List.length_range]
  · intro k hk
    rw [decodeEventWords_eq, getD_range_map, if_pos hk]
  · unfold eventCode
    rw [Nat.shiftRight_eq_div_pow, show (0x3 : ℕ) = 2 ^ 2 - 1 by norm_num,
      Nat.and_pow_two_sub_one_eq_mod]
    have : w / 2 ^ 30 < 2 ^ 2 := by omega
    exact Nat.mod_eq_of_lt this
  · unfold channelId
    rw [Nat.shiftRight_eq_div_pow, show (0x1F : ℕ) = 2 ^ 5 - 1 by norm_num,
      Nat.and_pow_two_sub_one_eq_mod]
  · unfold timestamp25
    rw [show (0x01FFFFFF : ℕ) = 2 ^ 25 - 1 by norm_num,
      Nat.and_pow_two_sub_one_eq_mod]
  · intro c h1 h2
    unfold classifyEvent
    rw [if_neg h1, if_neg h2]

/-- Witness for C8 at concrete input: a 5-byte buffer (one full word plus a
discarded trailing byte) and the word `0x44000123`. -/
theorem event_decode_correct_witness :
    (0x44000123 : ℕ) < 2 ^ 32 ∧
    (decodeEventWords [1, 2, 3, 4, 5]).length = 1 ∧
    eventCode 0x44000123 = 1 ∧
    channelId 0x44000123 = 2 ∧
    timestamp25 0x44000123 = 0x123 := by
  have h := event_decode_correct [1, 2, 3, 4, 5] 0x44000123 (by norm_num)
  refine ⟨by norm_num, ?_, ?_, ?_, ?_⟩
  · rw [h.1]
    simp
  · rw [h.2.2.1]
    norm_num
  · rw [h.2.2.2.1]
    norm_num
  · rw [h.2.2.2.2.1]
    norm_num

/-- A parsed line of a per-channel output file, as seen by
`parse_seizure_events` in run_tests.py: a `01 (START)` line with a valid
integer timestamp, a `02 (END  )` line with a valid integer timestamp, or
any other line (including malformed START/END lines whose timestamp fails
to parse, which the source skips with `continue`). -/
inductive Event : Type where
  | start : ℕ → Event
  | stop : ℕ → Event
  | skip : Event
deriving DecidableEq

/-- The loop body state machine of `parse_seizure_events`: `st` is the
`start_time` variable (`none` for Python's `None`).  A START line stores
its timestamp in `start_time` (overwriting whatever was there); an END
line with `start_time is not None` appends `(start_time, end_time)` and
clears `start_time`; anything else leaves the state unchanged.  After the
loop, a pending `start_time` yields a trailing `(start_time, None)`. -/
def parseAux : Option ℕ → List Event → List (ℕ × Option ℕ)
  | st, [] =>
    match st with
    | some s => [(s, none)]
    | none => []
  | _, Event.start t :: r => parseAux (some t) r
  | st, Event.stop t :: r =>
    match st with
    | some s => (s, some t) :: parseAux none r
    | none => parseAux none r
  | st, Event.skip :: r => parseAux st r

/-- `parse_seizure_events` from run_tests.py, starting from
`start_time = None`. -/
def parse_seizure_events (evts : List Event) : List (ℕ × Option ℕ) :=
  parseAux none evts

/-- The intervals emitted by the loop of `parse_seizure_events` itself,
without the end-of-stream flush of a pending `start_time`. -/
def emittedIntervals : Option ℕ → List Event → List (ℕ × Option ℕ)
  | _, [] => []
  | _, Event.start t :: r => emittedIntervals (some t) r
  | st, Event.stop t :: r =>
    match st with
    | some s => (s, some t) :: emittedIntervals none r
    | none => emittedIntervals none r
  | st, Event.skip :: r => emittedIntervals st r

/-- The value of the `start_time` variable after processing a line list. -/
def stateAfter : Option ℕ → List Event → Option ℕ
  | st, [] => st
  | _, Event.start t :: r => stateAfter (some t) r
  | _, Event.stop _ :: r => stateAfter none r
  | st, Event.skip :: r => stateAfter st r

lemma parseAux_decomp (l : List Event) :
    ∀ st, parseAux st l = emittedIntervals st l ++
      match stateAfter st l with
      | some s => [(s, none)]
      | none => [] := by
  induction l with
  | nil =>
    intro st
    cases st <;> rfl
  | cons e r ih =>
    intro st
    cases e with
    | start t => simpa [parseAux, emittedIntervals, stateAfter] using ih (some t)
    | stop t =>
      cases st with
      | none => simpa [parseAux, emittedIntervals, stateAfter] using ih none
      | some s => simpa [parseAux, emittedIntervals, stateAfter] using ih none
    | skip => simpa [parseAux, emittedIntervals, stateAfter] using ih st

lemma parseAux_append (l1 : List Event) :
    ∀ (st : Option ℕ) (l2 : List Event),
      parseAux st (l1 ++ l2) =
        emittedIntervals st l1 ++ parseAux (stateAfter st l1) l2 := by
  induction l1 with
  | nil =>
    intro st l2
    simp [emittedIntervals, stateAfter]
  | cons e r ih =>
    intro st l2
    cases e with
    | start t => simpa [parseAux, emittedIntervals, stateAfter] using ih (some t) l2
    | stop t =>
      cases st with
      | none => simpa [parseAux, emittedIntervals, stateAfter] using ih none l2
      | some s => simpa [parseAux, emittedIntervals, stateAfter] using ih none l2
    | skip => simpa [parseAux, emittedIntervals, stateAfter] using ih st l2

lemma emittedIntervals_closed (l : List Event) :
    ∀ (st : Option ℕ) (p : ℕ × Option ℕ), p ∈ emittedIntervals st l →
      p.2 ≠ none := by
  induction l with
  | nil =>
    intro st p hp
    simp [emittedIntervals] at hp
  | cons e r ih =>
    intro st p hp
    cases e with
    | start t => exact ih (some t) p hp
    | stop t =>
      cases st with
      | none => exact ih none p hp
      | some s =>
        rcases List.mem_cons.mp hp with h | h
        · subst h
          simp
        · exact ih none p h
    | skip => exact ih st p hp

/-- The timestamp of the last START line in a list, starting from a
current pending start `t` (later START lines overwrite `start_time`). -/
def lastStart : ℕ → List Event → ℕ
  | t, [] => t
  | _, Event.start u :: r => lastStart u r
  | t, Event.stop _ :: r => lastStart t r
  | t, Event.skip :: r => lastStart t r

lemma parseAux_some_noStop :
    ∀ (post : List Event) (t : ℕ), (∀ e ∈ post, ∀ v, e ≠ Event.stop v) →
      parseAux (some t) post = [(lastStart t post, none)] := by
  intro post
  induction post with
  | nil =>
    intro t _
    rfl
  | cons e r ih =>
    intro t hns
    cases e with
    | start u =>
      have := ih u fun x hx => hns x (List.mem_cons_of_mem _ hx)
      simpa [parseAux, lastStart] using this
    | stop v =>
      exact absurd rfl (hns (Event.stop v) (List.mem_cons_self _ _) v)
    | skip =>
      have := ih t fun x hx => hns x (List.mem_cons_of_mem _ hx)
      simpa [parseAux, lastStart] using this

/-- C5 counterexample: on the event sequence START 10, START 20, END 30 —
a second start with no intervening end — `parse_seizure_events` produces
the interval `(20, 30)`: the duplicate start silently overwrites the
original start time, so the resulting interval does NOT keep the first
start's timestamp 10. -/
theorem parse_duplicate_start_counterexample :
    parse_seizure_events [Event.start 10, Event.start 20, Event.stop 30] =
      [(20, some 30)] ∧
    parse_seizure_events [Event.start 10, Event.start 20, Event.stop 30] ≠
      [(10, some 30)] := by
  constructor
  · rfl
  · intro h
    have h10 : [((20 : ℕ), (some 30 : Option ℕ))] = [(10, some 30)] := by
      rw [← h]
      rfl
    simp at h10

/-- C5 (amended): when `parse_seizure_events` sees a second START with no
intervening END, the resulting interval keeps the timestamp of the SECOND
(most recent) start — the duplicate start silently overwrites the stored
start time — and the duplicate is not fatal: the remaining lines are still
processed normally. -/
theorem parse_duplicate_start_last_wins (pre rest : List Event)
    (t1 t2 t3 : ℕ) :
    parse_seizure_events
        (pre ++ Event.start t1 :: Event.start t2 :: Event.stop t3 :: rest) =
      emittedIntervals none pre ++ (t2, some t3) :: parseAux none rest := by
  unfold parse_seizure_events
  rw [parseAux_append]
  congr 1

/-- C9: (a) a START with no later END, wherever it occurs, makes the
parse end in exactly one trailing open interval `(s, none)` — `s` being
the pending start time — while every interval emitted by the loop itself
is closed; (b) an END line arriving while `start_time` is `None` is
discarded: the parse result is as if the line were absent, and parsing
continues. -/
theorem parse_open_and_stray_end (pre post : List Event) (t u : ℕ) :
    ((∀ e ∈ post, ∀ v, e ≠ Event.stop v) →
      parse_seizure_events (pre ++ Event.start t :: post) =
        emittedIntervals none pre ++ [(lastStart t post, none)] ∧
      ∀ p ∈ emittedIntervals none pre, p.2 ≠ none) ∧
    (stateAfter none pre = none →
      parse_seizure_events (pre ++ Event.stop u :: post) =
        parse_seizure_events (pre ++ post)) := by
  constructor
  · intro hns
    constructor
    · unfold parse_seizure_events
      rw [parseAux_append]
      congr 1
      have hstep : parseAux (stateAfter none pre) (Event.start t :: post) =
          parseAux (some t) post := by
        simp [parseAux]
      rw [hstep, parseAux_some_noStop post t hns]
    · exact emittedIntervals_closed pre none
  · intro hopen
    unfold parse_seizure_events
    rw [parseAux_append, parseAux_append, hopen]
    congr 1

/-- Witness for C9 with `pre = [skip]`, `post = [skip]`, `t = 5`, `u = 7`. -/
theorem parse_open_and_stray_end_witness :
    ((∀ e ∈ [Event.skip], ∀ v, e ≠ Event.stop v) ∧
      parse_seizure_events [Event.skip, Event.start 5, Event.skip] =
        emittedIntervals none [Event.skip] ++ [(lastStart 5 [Event.skip], none)]) ∧
    (stateAfter none [Event.skip] = none ∧
      parse_seizure_events [Event.skip, Event.stop 7, Event.skip] =
        parse_seizure_events [Event.skip, Event.skip]) := by
  have hns : ∀ e ∈ [Event.skip], ∀ v, e ≠ Event.stop v := by
    intro e he v h
    rw [List.mem_singleton] at he
    subst he
    exact Event.noConfusion h
  have hopen : stateAfter none [Event.skip] = none := rfl
  have h := parse_open_and_stray_end [Event.skip] [Event.skip] 5 7
  exact ⟨⟨hns, (h.1 hns).1⟩, hopen, h.2 hopen⟩

/-- Per-unit state of `NeuralSynthSource` (synthetic.py): the parameters
drawn once at construction (`spike_amplitude`, `spike_duration_ms`,
`spike_rate_hz`) and the mutable `firing` flag and `spike_time_ms`. -/
structure SpikeUnit : Type where
  amplitude : ℚ
  duration : ℚ
  rate : ℚ
  firing : Bool
  spikeTime : ℚ
deriving DecidableEq

/-- `self.spike_refractory_period_ms = 5.0` from synthetic.py. -/
def spikeRefractoryPeriodMs : ℚ := 5

/-- The state of one `NeuralSynthSource` (synthetic.py).  Times are in
milliseconds, modelled as rationals standing in for the source's floats;
`seizureStartTimeMs = none` is Python's `None`. -/
structure SynthState : Type where
  sampleRate : ℚ
  tStepMs : ℚ
  tMs : ℚ
  enableSeizures : Bool
  seizureStartTimeMs : Option ℚ
  seizureDurationMs : ℚ
  units : List SpikeUnit
deriving DecidableEq

/-- `NeuralSynthSource.__init__`: `t_step_ms = 1000.0 / sample_rate`,
`t_ms = 0.0`, no active seizure, `seizure_duration_ms = 6000.0`, and one
unit per parameter triple (the `random.uniform` / log-uniform draws of
the constructor are inputs here), each with `firing = False` and
`spike_time_ms = 0.0`. -/
def mkNeuralSynthSource (sampleRate : ℚ) (enable : Bool)
    (params : List (ℚ × ℚ × ℚ)) : SynthState :=
  { sampleRate := sampleRate
    tStepMs := 1000 / sampleRate
    tMs := 0
    enableSeizures := enable
    seizureStartTimeMs := none
    seizureDurationMs := 6000
    units := params.map fun p =>
      { amplitude := p.1, duration := p.2.1, rate := p.2.2,
        firing := false, spikeTime := 0 } }

/-- The state effect of `_next_spike_voltage` (synthetic.py): advance
`spike_time_ms` by `t_step_ms` while inside the spike or the refractory
period, otherwise clear `firing` and reset `spike_time_ms` to 0. -/
def spikeStateStep (tStep : ℚ) (u : SpikeUnit) : SpikeUnit :=
  if u.spikeTime < u.duration then { u with spikeTime := u.spikeTime + tStep }
  else if u.spikeTime < u.duration + spikeRefractoryPeriodMs then
    { u with spikeTime := u.spikeTime + tStep }
  else { u with firing := false, spikeTime := 0 }

/-- The per-unit state effect of one `next_sample` call (synthetic.py):
a firing unit is advanced by `_next_spike_voltage`; an idle unit starts
firing when the `random.random() < probability` draw (`fireDraw`)
succeeds, leaving `spike_time_ms` untouched. -/
def unitStep (tStep : ℚ) (fireDraw : Bool) (u : SpikeUnit) : SpikeUnit :=
  if u.firing then spikeStateStep tStep u
  else if fireDraw then { u with firing := true } else u

/-- The `for unit in range(self.n_units)` loop of `next_sample`, with one
independent draw per unit. -/
def stepUnits (tStep : ℚ) (fire : ℕ → Bool) : ℕ → List SpikeUnit → List SpikeUnit
  | _, [] => []
  | i, u :: us => unitStep tStep (fire i) u :: stepUnits tStep fire (i + 1) us

/-- The state effect of `_seizure_voltage` (synthetic.py): with no active
seizure, the `random.random() < seizure_probability * t_step / 1000` draw
(`startDraw`) may set `seizure_start_time_ms = t_ms`; with an active
seizure, it stays active while `t_ms - start < seizure_duration_ms` and
is cleared otherwise. -/
def seizureStateStep (tMs duration : ℚ) (startDraw : Bool) :
    Option ℚ → Option ℚ
  | none => if startDraw then some tMs else none
  | some s => if tMs - s < duration then some s else none

/-- Outcomes of the `random.random()` comparisons made during one
`next_sample` call: one per spiking unit, one for the seizure start. -/
structure DrawOracle : Type where
  fire : ℕ → Bool
  seize : Bool

/-- The state effect of `next_sample` (synthetic.py): step every unit,
step the seizure state (only if seizures are enabled, and before time
advances), then advance `t_ms` by `t_step_ms`. -/
def next_sample_state (o : DrawOracle) (st : SynthState) : SynthState :=
  { st with
    units := stepUnits st.tStepMs o.fire 0 st.units
    seizureStartTimeMs :=
      if st.enableSeizures then
        seizureStateStep st.tMs st.seizureDurationMs o.seize st.seizureStartTimeMs
      else st.seizureStartTimeMs
    tMs := st.tMs + st.tStepMs }

/-- `NeuralSynthSource.reset` (synthetic.py). -/
def resetSource (st : SynthState) : SynthState :=
  { st with
    tMs := 0
    seizureStartTimeMs := none
    units := st.units.map fun u => { u with firing := false, spikeTime := 0 } }

/-- The invariant exactly as the specification states it: per unit,
exactly one of { not firing, firing with 0 ≤ spike_time < duration +
refractory } — the two alternatives are mutually exclusive through the
`firing` flag, so the disjunction expresses "exactly one" — and per
channel exactly one of { no active seizure, active with 0 ≤ elapsed <
seizure_duration }, `elapsed = t_ms - seizure_start_time_ms`. -/
def synthClaimInv (st : SynthState) : Prop :=
  (∀ u ∈ st.units, u.firing = false ∨
    (u.firing = true ∧ 0 ≤ u.spikeTime ∧
      u.spikeTime < u.duration + spikeRefractoryPeriodMs)) ∧
  (st.seizureStartTimeMs = none ∨
    ∃ s, st.seizureStartTimeMs = some s ∧ 0 ≤ st.tMs - s ∧
      st.tMs - s < st.seizureDurationMs)

/-- The invariant that actually holds: the strict bounds of the claim can
be overshot by exactly one sample period `t_step_ms`, because
`next_sample` advances `t_ms` (and `spike_time_ms`) after testing the
bound, and the stale state is only cleaned up at the next call. -/
def synthInv (st : SynthState) : Prop :=
  (∀ u ∈ st.units,
    (u.firing = true → 0 ≤ u.spikeTime ∧
      u.spikeTime < u.duration + spikeRefractoryPeriodMs + st.tStepMs) ∧
    (u.firing = false → u.spikeTime = 0)) ∧
  (∀ s, st.seizureStartTimeMs = some s →
    0 ≤ st.tMs - s ∧ st.tMs - s < st.seizureDurationMs + st.tStepMs) ∧
  (st.enableSeizures = false → st.seizureStartTimeMs = none)

/-- All-true draw oracle: every unit draw and the seizure draw succeed. -/
def oracleAll : DrawOracle := ⟨fun _ => true, true⟩

/-- A concrete source: `NeuralSynthSource(sample_rate=1, n_units=0,
enable_seizures=True)`, so `t_step_ms = 1000`. -/
def demoSource : SynthState := mkNeuralSynthSource 1 true []

/-- `demoSource` after six `next_sample` calls whose seizure draw
succeeds immediately: the seizure starts at `t_ms = 0` and by the sixth
call `t_ms` has reached `6000 = seizure_duration_ms` while the seizure is
still marked active. -/
def demoRun : SynthState :=
  next_sample_state oracleAll (next_sample_state oracleAll
    (next_sample_state oracleAll (next_sample_state oracleAll
      (next_sample_state oracleAll (next_sample_state oracleAll demoSource)))))

/-- C6 counterexample: after the sixth `next_sample` call on a concrete
reachable state the seizure is still active (`seizure_start_time_ms =
some 0`) but `elapsed = t_ms - 0 = 6000` is not `< seizure_duration_ms =
6000`, so the claimed invariant fails in the post-call state. -/
theorem synth_claim_inv_counterexample :
    demoRun.seizureStartTimeMs = some 0 ∧ demoRun.tMs = 6000 ∧
    demoRun.seizureDurationMs = 6000 ∧ ¬ synthClaimInv demoRun := by
  have hst : demoRun.seizureStartTimeMs = some 0 := by
    norm_num [demoRun, demoSource, mkNeuralSynthSource, next_sample_state,
      seizureStateStep, oracleAll, stepUnits]
  have ht : demoRun.tMs = 6000 := by
    norm_num [demoRun, demoSource, mkNeuralSynthSource, next_sample_state,
      seizureStateStep, oracleAll, stepUnits]
  have hd : demoRun.seizureDurationMs = 6000 := by
    norm_num [demoRun, demoSource, mkNeuralSynthSource, next_sample_state,
      seizureStateStep, oracleAll, stepUnits]
  refine ⟨hst, ht, hd, ?_⟩
  intro h
  rcases h.2 with hnone | ⟨s, hs, _, hlt⟩
  · rw [hst] at hnone
    exact Option.noConfusion hnone
  · rw [hst] at hs
    injection hs with h0
    subst h0
    rw [ht, hd] at hlt
    norm_num at hlt

lemma mem_stepUnits (tStep : ℚ) (fire : ℕ → Bool) :
    ∀ (l : List SpikeUnit) (i : ℕ) (x : SpikeUnit), x ∈ stepUnits tStep fire i l →
      ∃ u ∈ l, ∃ b, x = unitStep tStep b u := by
  intro l
  induction l with
  | nil =>
    intro i x hx
    simp [stepUnits] at hx
  | cons y ys ih =>
    intro i x hx
    simp only [stepUnits] at hx
    rcases List.mem_cons.mp hx with h1 | h1
    · exact ⟨y, List.mem_cons_self _ _, fire i, h1⟩
    · obtain ⟨u, hu, b, hb⟩ := ih (i + 1) x h1
      exact ⟨u, List.mem_cons_of_mem _ hu, b, hb⟩

lemma unitStep_inv {tStep : ℚ} (hstep : 0 < tStep) {u : SpikeUnit}
    (hdur : 0 < u.duration) (b : Bool)
    (h1 : u.firing = true → 0 ≤ u.spikeTime ∧
      u.spikeTime < u.duration + spikeRefractoryPeriodMs + tStep)
    (h2 : u.firing = false → u.spikeTime = 0) :
    ((unitStep tStep b u).firing = true → 0 ≤ (unitStep tStep b u).spikeTime ∧
      (unitStep tStep b u).spikeTime <
        (unitStep tStep b u).duration + spikeRefractoryPeriodMs + tStep) ∧
    ((unitStep tStep b u).firing = false → (unitStep tStep b u).spikeTime = 0) := by
  have hr : (0 : ℚ) < spikeRefractoryPeriodMs := by
    norm_num [spikeRefractoryPeriodMs]
  cases hf : u.firing with
  | true =>
    obtain ⟨ht0, htlt⟩ := h1 hf
    unfold unitStep spikeStateStep
    rw [hf]
    by_cases hc1 : u.spikeTime < u.duration
    · rw [if_pos rfl, if_pos hc1]
      refine ⟨fun _ => ⟨by simp; linarith, by simp; linarith⟩, fun hff => ?_⟩
      simp at hff
    · rw [if_pos rfl, if_neg hc1]
      by_cases hc2 : u.spikeTime < u.duration + spikeRefractoryPeriodMs
      · rw [if_pos hc2]
        refine ⟨fun _ => ⟨by simp; linarith, by simp; linarith⟩, fun hff => ?_⟩
        simp at hff
      · rw [if_neg hc2]
        exact ⟨fun hcontra => by simp at hcontra, fun _ => rfl⟩
  | false =>
    have hz := h2 hf
    unfold unitStep
    rw [hf]
    cases b with
    | true =>
      rw [if_neg (by simp), if_pos rfl]
      refine ⟨fun _ => ⟨by simp [hz], ?_⟩, fun hff => by simp at hff⟩
      simp [hz]
      linarith
    | false =>
      rw [if_neg (by simp), if_neg (by simp)]
      exact ⟨h1, h2⟩

lemma seizureStep_inv {tMs duration tStep : ℚ} (hstep : 0 < tStep)
    (hdur : 0 < duration) (start : Option ℚ) (draw : Bool)
    (hpre : ∀ s, start = some s → 0 ≤ tMs - s ∧ tMs - s < duration + tStep) :
    ∀ s, seizureStateStep tMs duration draw start = some s →
      0 ≤ tMs + tStep - s ∧ tMs + tStep - s < duration + tStep := by
  intro s hs
  cases start with
  | none =>
    simp only [seizureStateStep] at hs
    cases draw with
    | false => exact absurd hs (by simp)
    | true =>
      rw [if_pos rfl] at hs
      injection hs with h0
      subst h0
      constructor <;> linarith
  | some s0 =>
    simp only [seizureStateStep] at hs
    by_cases hc : tMs - s0 < duration
    · rw [if_pos hc] at hs
      injection hs with h0
      subst h0
      obtain ⟨h0', _⟩ := hpre s0 rfl
      constructor <;> linarith
    · rw [if_neg hc] at hs
      exact absurd hs (by simp)

/-- C6 (amended): the `NeuralSynthSource` state machine maintains, after
construction, after `reset()`, and across every `next_sample()` call, the
invariant that a firing unit has `0 ≤ spike_time < duration + refractory
+ t_step` and an idle unit has `spike_time = 0`, and that an active
seizure has `0 ≤ elapsed < seizure_duration + t_step` (no seizure is ever
active when seizures are disabled).  The claimed strict bounds without
the `+ t_step` slack do not hold in post-call states — see the
counterexample — because `next_sample` advances time after testing them. -/
theorem synth_state_invariant (sampleRate : ℚ) (enable : Bool)
    (params : List (ℚ × ℚ × ℚ)) (o : DrawOracle) (st : SynthState) :
    synthInv (mkNeuralSynthSource sampleRate enable params) ∧
    synthInv (resetSource st) ∧
    (0 < st.tStepMs → (∀ u ∈ st.units, 0 < u.duration) →
      0 < st.seizureDurationMs → synthInv st →
      synthInv (next_sample_state o st)) := by
  refine ⟨?_, ?_, ?_⟩
  · unfold synthInv mkNeuralSynthSource
    refine ⟨?_, ?_, ?_⟩
    · intro u hu
      simp only [List.mem_map] at hu
      obtain ⟨p, _, rfl⟩ := hu
      exact ⟨fun hcontra => absurd hcontra (by simp), fun _ => rfl⟩
    · intro s hs
      exact absurd hs (by simp)
    · intro _
      rfl
  · unfold synthInv resetSource
    refine ⟨?_, ?_, ?_⟩
    · intro u hu
      simp only [List.mem_map] at hu
      obtain ⟨v, _, rfl⟩ := hu
      exact ⟨fun hcontra => absurd hcontra (by simp), fun _ => rfl⟩
    · intro s hs
      exact absurd hs (by simp)
    · intro _
      rfl
  · intro hstep hdur hsd hinv
    obtain ⟨hu, hseiz, hen⟩ := hinv
    unfold synthInv next_sample_state
    refine ⟨?_, ?_, ?_⟩
    · intro x hx
      obtain ⟨u, hum, b, rfl⟩ := mem_stepUnits st.tStepMs o.fire st.units 0 x hx
      have h12 := hu u hum
      exact unitStep_inv hstep (hdur u hum) b h12.1 h12.2
    · intro s hs
      simp only [] at hs
      by_cases he : st.enableSeizures = true
      · rw [if_pos he] at hs
        exact seizureStep_inv hstep hsd st.seizureStartTimeMs o.seize hseiz s hs
      · rw [if_neg he] at hs
        have hef : st.enableSeizures = false := by
          simpa using he
        rw [hen hef] at hs
        exact absurd hs (by simp)
    · intro hef
      simp only [] at hef
      rw [if_neg (by rw [hef]; simp)]
      exact hen hef

/-- Witness for C6 applying the invariant theorem to the concrete source
`demoSource` (sample rate 1, no units, seizures enabled) and the all-true
draw oracle. -/
theorem synth_state_invariant_witness :
    (0 < demoSource.tStepMs ∧ (∀ u ∈ demoSource.units, 0 < u.duration) ∧
      0 < demoSource.seizureDurationMs ∧ synthInv demoSource) ∧
    synthInv (resetSource demoSource) ∧
    synthInv (next_sample_state oracleAll demoSource) := by
  have h := synth_state_invariant 1 true [] oracleAll demoSource
  have hstep : 0 < demoSource.tStepMs := by
    norm_num [demoSource, mkNeuralSynthSource]
  have hdur : ∀ u ∈ demoSource.units, 0 < u.duration := by
    intro u hu
    simp [demoSource, mkNeuralSynthSource] at hu
  have hsd : 0 < demoSource.seizureDurationMs := by
    norm_num [demoSource, mkNeuralSynthSource]
  have hinv : synthInv demoSource := h.1
  exact ⟨⟨hstep, hdur, hsd, hinv⟩, h.2.1, h.2.2 hstep hdur hsd hinv⟩

/-- The per-channel seed of `generate_data_intan16` (synthetic.py):
`random_seed = channel + int(time.time() * 1000) if enable_seizures else
channel`.  `nowMs` models the wall-clock value `int(time.time() * 1000)`
at the moment of the call. -/
def channelSeed (enable : Bool) (nowMs ch : ℕ) : ℕ :=
  if enable then ch + nowMs else ch

/-- The quantization of `generate_data_intan16` (synthetic.py):
`code16 = int(round(voltage_uv / 0.195)) + 32768`, then
`if code16 < 0: code16 = 0 elif code16 > 65535: code16 = 65535`.
The float literal `0.195` is modelled as the rational `195 / 1000`. -/
def quantizeIntan16 (v : ℚ) : ℤ :=
  let code16 : ℤ := round (v / (195 / 1000)) + 32768
  if code16 < 0 then 0 else if code16 > 65535 then 65535 else code16

/-- The quantization as the specification words it: `code16 =
round(voltage_µV / 0.195) + 32768`, clamped to `[0, 65535]`. -/
def quantizeClampSpec (v : ℚ) : ℤ :=
  min 65535 (max 0 (round (v / (195 / 1000)) + 32768))

/-- `generate_data_intan16` (synthetic.py), modelled from the already
chosen per-seed sample streams: each channel's `NeuralSynthSource` is
constructed with `random.seed(random_seed)`, which makes its sequence of
`next_sample()` voltages a pure function of the seed; that function is
the parameter `synth` (seed, then sample index, to the synthesized
microvolt voltage).  The buffer is channel-major:
`data16[channel * samples_per_channel + sample]`. -/
def generate_data_intan16 (synth : ℕ → ℕ → ℚ) (numCh spc : ℕ)
    (enable : Bool) (nowMs : ℕ) : List ℤ :=
  (List.range numCh).flatMap fun ch =>
    (List.range spc).map fun smp =>
      quantizeIntan16 (synth (channelSeed enable nowMs ch) smp)

lemma clamp_chain_eq (c : ℤ) :
    (if c < 0 then 0 else if c > 65535 then (65535 : ℤ) else c) =
      min 65535 (max 0 c) := by
  split_ifs with h1 h2 <;> omega

lemma clamp_chain_bounds (c : ℤ) :
    0 ≤ (if c < 0 then 0 else if c > 65535 then (65535 : ℤ) else c) ∧
    (if c < 0 then 0 else if c > 65535 then (65535 : ℤ) else c) ≤ 65535 := by
  split_ifs with h1 h2 <;> omega

lemma quantizeIntan16_bounds (v : ℚ) :
    0 ≤ quantizeIntan16 v ∧ quantizeIntan16 v ≤ 65535 :=
  clamp_chain_bounds (round (v / (195 / 1000)) + 32768)

/-- C7: each element of the `generate_data_intan16` buffer is the
quantization `round(voltage / 0.195) + 32768` of the corresponding
synthesized voltage, clamped to `[0, 65535]` — the source's if-chain
equals the spec's clamp — and consequently `0 ≤ code16 ≤ 65535` for every
generated sample. -/
theorem generate_intan16_quantization (synth : ℕ → ℕ → ℚ) (numCh spc : ℕ)
    (enable : Bool) (nowMs : ℕ) :
    (∀ v : ℚ, quantizeIntan16 v = quantizeClampSpec v) ∧
    (∀ ch smp, ch < numCh → smp < spc →
      (generate_data_intan16 synth numCh spc enable nowMs).getD
          (ch * spc + smp) 0 =
        quantizeIntan16 (synth (channelSeed enable nowMs ch) smp)) ∧
    (∀ x ∈ generate_data_intan16 synth numCh spc enable nowMs,
      0 ≤ x ∧ x ≤ 65535) := by
  refine ⟨?_, ?_, ?_⟩
  · intro v
    exact clamp_chain_eq (round (v / (195 / 1000)) + 32768)
  · intro ch smp hch hsmp
    unfold generate_data_intan16
    exact getD_flatMap_range_map spc
      (fun ch' smp' => quantizeIntan16 (synth (channelSeed enable nowMs ch') smp'))
      0 numCh ch smp hch hsmp
  · intro x hx
    unfold generate_data_intan16 at hx
    simp only [List.mem_flatMap, List.mem_map] at hx
    obtain ⟨ch, _, smp, _, rfl⟩ := hx
    exact quantizeIntan16_bounds _

/-- Witness for C7 with the zero voltage stream, one channel, one sample. -/
theorem generate_intan16_quantization_witness :
    ((0 : ℕ) < 1 ∧ (0 : ℕ) < 1) ∧
    (generate_data_intan16 (fun _ _ => 0) 1 1 false 0).getD 0 0 =
      quantizeIntan16 0 ∧
    (∀ x ∈ generate_data_intan16 (fun _ _ => 0) 1 1 false 0,
      0 ≤ x ∧ x ≤ 65535) := by
  have h := generate_intan16_quantization (fun _ _ => 0) 1 1 false 0
  have h2 := h.2.1 0 0 (by norm_num) (by norm_num)
  refine ⟨⟨by norm_num, by norm_num⟩, ?_, h.2.2⟩
  simpa using h2

/-- A sample stream that reveals its seed: the synthesizer for seed `s`
always outputs `0.195 * s` microvolts, which quantizes to `32768 + s`.
The actual stream (the Mersenne Twister seeded with `random.seed(s)`
driving the voltage pipeline) likewise differs between different seeds;
any seed-sensitive stream exhibits the time dependence below. -/
def synthSeedProbe : ℕ → ℕ → ℚ := fun seed _ => 195 / 1000 * seed

/-- C4 counterexample: `generate_data_intan16` with `enable_seizures =
True` called at wall-clock millisecond 0 and at millisecond 1 (all other
parameters identical, one channel, one sample) produces different
buffers, because the per-channel seed `channel + int(time.time() * 1000)`
differs between the two calls. -/
theorem generate_intan16_time_dependence :
    generate_data_intan16 synthSeedProbe 1 1 true 0 ≠
      generate_data_intan16 synthSeedProbe 1 1 true 1 := by
  have h0 : generate_data_intan16 synthSeedProbe 1 1 true 0 = [32768] := by
    norm_num [generate_data_intan16, channelSeed, synthSeedProbe,
      quantizeIntan16, List.range_succ]
  have h1 : generate_data_intan16 synthSeedProbe 1 1 true 1 = [32769] := by
    norm_num [generate_data_intan16, channelSeed, synthSeedProbe,
      quantizeIntan16, List.range_succ]
  intro h
  rw [h0, h1] at h
  simp at h

/-- C4 (amended): the generated buffer is a pure function of the sample
streams, the parameters and the per-channel seeds.  With
`enable_seizures = False` the seeds are the channel indices alone, so two
calls at any two times produce identical buffers; with `enable_seizures =
True` the seed incorporates the wall-clock millisecond, and two calls
agree when (and, for a seed-sensitive stream, only when) they see the
same clock value. -/
theorem generate_intan16_determinism (synth : ℕ → ℕ → ℚ) (numCh spc : ℕ)
    (t t' : ℕ) :
    generate_data_intan16 synth numCh spc false t =
      generate_data_intan16 synth numCh spc false t' ∧
    generate_data_intan16 synth numCh spc true t =
      generate_data_intan16 synth numCh spc true t := by
  refine ⟨?_, rfl⟩
  unfold generate_data_intan16
  simp [channelSeed]
